import Mathlib

/-!
Shallow embedding of `flexce/snia.py`: the SNIa delay-time-distribution
(DTD) kernel builders (`snia_dtd`, `dtd_exp`, `dtd_powerlaw`,
`dtd_prompt_delayed`, `snia_dtd_single_degenerate`) and the per-timestep
event engine (`snia_ev`).

Modelling conventions:
* Python/numpy floats are modelled as rationals (`ℚ`); exact float
  rounding is not modelled except where IEEE special values matter
  (the `FVal` type used for the power-law normalization).
* numpy arrays are Lean lists; `a[:k]` is `List.take k`, which, like a
  numpy slice, clamps at the array length.
* the type distinction between integer-typed and float-typed numpy
  scalars is kept (`PyNum`) because numpy rejects float-typed array
  indices, which matters for the `prompt_delayed` branch of `snia_ev`
  (`np.ceil` without `.astype(int)` yields a float index).
* fallible operations return `Except String`; a returned `.error` models
  a raised Python exception propagating out of the function.
-/

/-- A numpy scalar, tagged with its dtype kind: integer-typed or
float-typed.  `np.ceil` returns a float; `.astype(int)` makes an int. -/
inductive PyNum where
  | int : ℤ → PyNum
  | float : ℚ → PyNum
  deriving DecidableEq

/-- Numeric value carried by a numpy scalar. -/
def PyNum.val : PyNum → ℚ
  | .int z => (z : ℚ)
  | .float q => q

/-- Truncation toward zero, the semantics of `.astype(int)` on a float. -/
def ratTrunc (q : ℚ) : ℤ := if 0 ≤ q then ⌊q⌋ else ⌈q⌉

/-- `np.ceil` on a scalar: the ceiling, returned as a float-typed value. -/
def npCeil (q : ℚ) : PyNum := .float ((⌈q⌉ : ℤ) : ℚ)

/-- `.astype(int)` on a numpy scalar. -/
def PyNum.astypeInt : PyNum → PyNum
  | .int z => .int z
  | .float q => .int (ratTrunc q)

/-- Subtraction of numpy scalars: int - int stays int, anything
involving a float is a float. -/
def PyNum.sub : PyNum → PyNum → PyNum
  | .int a, .int b => .int (a - b)
  | a, b => .float (a.val - b.val)

/-- Read an integer-typed numpy scalar as an integer (a float-typed
value is truncated; this case is never reached below). -/
def PyNum.toIntVal : PyNum → ℤ
  | .int z => z
  | .float q => ratTrunc q

/-- Indexing a 1-d numpy array with a scalar.  Integer indices follow
numpy semantics (negative indices wrap, out-of-range raises
`IndexError`); a float-typed index always raises `IndexError`. -/
def pyGet (xs : List ℚ) : PyNum → Except String ℚ
  | .int z =>
      let i : ℤ := if z < 0 then z + xs.length else z
      if h : 0 ≤ i ∧ i.toNat < xs.length then .ok (xs.get ⟨i.toNat, h.2⟩)
      else .error "IndexError: index out of bounds"
  | .float _ => .error "IndexError: only integers may be used as indices"

/-- The fields of `params[.snia]` read by `snia_ev`
(`func`, `min_time`, `prob_prompt`, `prob_delay`). -/
structure SniaPar where
  func : String
  min_time : ℚ
  prob_prompt : ℚ
  prob_delay : ℚ

/-- `snia_ev` (snia.py lines 217-258): the per-timestep SNIa event
engine.  Returns the expected event count `Nia_stat` together with the
`Mwd_Ia` reservoir after the call (only the `exponential` branch writes
to it; every other branch hands the input list back unchanged, which is
exactly the in-place semantics of the Python code, which never assigns
to `Mwd_Ia` outside the exponential branch).

* `exponential`: `ind_min_t = tstep - np.ceil(min_time/dt).astype(int)`;
  if positive, the count is `np.sum(Mwd_Ia[:ind_min_t+1] * dMwd / snia_mass)`
  from the pre-decay reservoir, and `Mwd_Ia[:ind_min_t+1] *= 1 - dMwd`.
* `power_law` / `single_degenerate`:
  `np.sum(ria[:tstep] * np.sum(mstar[1:tstep+1], axis=1)[::-1])`;
  a length mismatch of the two factors is a numpy broadcast error.
* `prompt_delayed`: `ind = tstep - np.ceil(min_time/dt)` (note: no
  `.astype(int)`, so `ind` is float-typed); `sfr[ind]` is evaluated only
  when `ind > 0` and then raises because the index is a float.
* any other `func` string falls through every branch and `return Nia_stat`
  raises `NameError` (the variable was never assigned). -/
def snia_ev (par : SniaPar) (tstep : ℕ) (dt : ℚ) (Mwd_Ia : List ℚ)
    (dMwd : ℚ) (ria : List ℚ) (mstar : List (List ℚ)) (snia_mass : ℚ)
    (mstar_tot : ℚ) (sfr : List ℚ) : Except String (ℚ × List ℚ) :=
  if par.func = "exponential" then
    let ind_min_t : ℤ := ((PyNum.int tstep).sub
      ((npCeil (par.min_time / dt)).astypeInt)).toIntVal
    if 0 < ind_min_t then
      let k : ℕ := (ind_min_t + 1).toNat
      .ok (((Mwd_Ia.take k).map (fun m => m * dMwd / snia_mass)).sum,
           (Mwd_Ia.take k).map (fun m => m * (1 - dMwd)) ++ Mwd_Ia.drop k)
    else
      .ok (0, Mwd_Ia)
  else if par.func = "power_law" ∨ par.func = "single_degenerate" then
    let formed : List ℚ := ((mstar.drop 1).take tstep).map (fun row => row.sum)
    let r : List ℚ := ria.take tstep
    if r.length = formed.length then
      .ok ((List.zipWith (fun x y => x * y) r formed.reverse).sum, Mwd_Ia)
    else
      .error "ValueError: operands could not be broadcast together"
  else if par.func = "prompt_delayed" then
    let ind : PyNum := (PyNum.int tstep).sub (npCeil (par.min_time / dt))
    if 0 < ind.val then
      match pyGet sfr ind with
      | .ok s => .ok ((s * par.prob_prompt + mstar_tot * par.prob_delay) * dt, Mwd_Ia)
      | .error e => .error e
    else
      .ok ((0 + mstar_tot * par.prob_delay) * dt, Mwd_Ia)
  else
    .error "NameError: name Nia_stat is not defined"


/-! ### Kernel builder: `dtd_powerlaw` (snia.py lines 89-105) -/

/-- `ria[ind10000].sum`: the sum of the entries of `vals` at the indices
where the matching time in `t` is at most 10000 Myr
(`ind10000 = np.where(self.t <= 10000.)`). -/
def sumWindow (t vals : List ℚ) : ℚ :=
  (List.zipWith (fun ti v => if ti ≤ 10000 then v else 0) t vals).sum

/-- `dtd_powerlaw` (snia.py lines 99-105): `ria[i] = t[i]**slope` where
`t[i] >= min_snia_time`, 0 elsewhere, then `ria * (nia_per_mstar /
ria[ind10000].sum())`.  The float power `(.)**slope` is taken as an
uninterpreted parameter `pw : ℚ → ℚ`, so the statements hold for every
slope. -/
def dtd_powerlaw (t : List ℚ) (min_snia_time nia_per_mstar : ℚ)
    (pw : ℚ → ℚ) : List ℚ :=
  let ria := t.map (fun ti => if min_snia_time ≤ ti then pw ti else 0)
  let norm := nia_per_mstar / sumWindow t ria
  ria.map (fun r => r * norm)

/-! ### IEEE-special-value refinement of the power-law normalization -/

/-- A float value including the IEEE special values that
`nia_per_mstar / 0.0` and `0.0 * inf` produce in numpy. -/
inductive FVal where
  | fin : ℚ → FVal
  | inf : FVal
  | neginf : FVal
  | nan : FVal
  deriving DecidableEq

/-- Finiteness of a float value. -/
def FVal.isFinite : FVal → Bool
  | .fin _ => true
  | _ => false

/-- IEEE addition on `FVal` (restricted to the cases exercised here). -/
def FVal.add : FVal → FVal → FVal
  | .nan, _ => .nan
  | _, .nan => .nan
  | .inf, .neginf => .nan
  | .neginf, .inf => .nan
  | .inf, _ => .inf
  | _, .inf => .inf
  | .neginf, _ => .neginf
  | _, .neginf => .neginf
  | .fin a, .fin b => .fin (a + b)

/-- IEEE multiplication on `FVal`: `0 * inf = nan`, signs as usual. -/
def FVal.mul : FVal → FVal → FVal
  | .nan, _ => .nan
  | _, .nan => .nan
  | .fin a, .fin b => .fin (a * b)
  | .fin a, .inf => if a = 0 then .nan else if 0 < a then .inf else .neginf
  | .inf, .fin b => if b = 0 then .nan else if 0 < b then .inf else .neginf
  | .fin a, .neginf => if a = 0 then .nan else if 0 < a then .neginf else .inf
  | .neginf, .fin b => if b = 0 then .nan else if 0 < b then .neginf else .inf
  | .inf, .inf => .inf
  | .neginf, .neginf => .inf
  | .inf, .neginf => .neginf
  | .neginf, .inf => .neginf

/-- IEEE division on `FVal`: a nonzero finite value divided by zero is a
signed infinity (numpy emits a RuntimeWarning but no exception), and
`0 / 0 = nan`. -/
def FVal.div : FVal → FVal → FVal
  | .nan, _ => .nan
  | _, .nan => .nan
  | .fin a, .fin b =>
      if b = 0 then (if a = 0 then .nan else if 0 < a then .inf else .neginf)
      else .fin (a / b)
  | .fin _, .inf => .fin 0
  | .fin _, .neginf => .fin 0
  | .inf, .fin b => if 0 ≤ b then .inf else .neginf
  | .neginf, .fin b => if 0 ≤ b then .neginf else .inf
  | .inf, .inf => .nan
  | .inf, .neginf => .nan
  | .neginf, .inf => .nan
  | .neginf, .neginf => .nan

/-- Sum of a list of float values. -/
def FVal.listSum (l : List FVal) : FVal := l.foldr FVal.add (.fin 0)

/-- `ria[ind10000].sum()` over float values. -/
def sumWindowF (t : List ℚ) (vals : List FVal) : FVal :=
  FVal.listSum (List.zipWith (fun ti v => if ti ≤ 10000 then v else FVal.fin 0) t vals)

/-- `dtd_powerlaw` again, but with the arithmetic of the normalization
step carried out on `FVal` so that the behaviour on a zero denominator
(`ria[ind10000].sum() == 0`) is the one numpy actually has: the division
produces `inf` and the final scaling produces `nan`/`inf` entries, with
no exception raised (the function is total).  The float power is the
uninterpreted `pwF`. -/
def dtd_powerlawF (t : List ℚ) (min_snia_time nia_per_mstar : ℚ)
    (pwF : ℚ → FVal) : List FVal :=
  let ria := t.map (fun ti => if min_snia_time ≤ ti then pwF ti else FVal.fin 0)
  let norm := FVal.div (.fin nia_per_mstar) (sumWindowF t ria)
  ria.map (fun r => FVal.mul r norm)

/-! ### Kernel builder dispatch: `snia_dtd` (snia.py lines 21-54) -/

/-- The keyword parameters accepted by each DTD function, read off the
signatures of `dtd_exp`, `dtd_powerlaw`, `dtd_prompt_delayed` and
`snia_dtd_single_degenerate`. -/
def validKeys (func : String) : List String :=
  if func = "exponential" then ["min_snia_time", "timescale", "snia_fraction"]
  else if func = "power_law" then ["min_snia_time", "nia_per_mstar", "slope"]
  else if func = "prompt_delayed" then ["A", "B", "min_snia_time"]
  else if func = "single_degenerate" then
    ["A", "gam", "eps", "normalize", "nia_per_mstar"]
  else []

/-- The diagnostic text printed by `snia_dtd` when a DTD function raises
`TypeError` (snia.py lines 46-52). -/
def helpMessage : String :=
  "\nValid keywords:\n" ++
  "exponential: timescale, min_snia_time, snia_fraction\n" ++
  "power_law: min_snia_time, nia_per_mstar, slope\n" ++
  "prompt_delayed: A, B, min_snia_time\n" ++
  "single_degenerate: no keywords\n"

/-- The dict `snia_param = {.func.: func, .k.: kwargs}` returned by
`snia_dtd`; the kwargs dict is modelled by its list of keyword names. -/
structure SniaParam where
  func : String
  k : List String
  deriving DecidableEq

/-- The dispatch call `dtd_exp(**kwargs)` etc. inside the `try` block:
for a recognized model name it raises `TypeError` exactly when `kwargs`
contains a keyword the function signature does not accept; an
unrecognized model name matches no branch, so nothing is called and
nothing can raise. -/
def applyDtd (func : String) (kwargs : List String) : Except String Unit :=
  if func = "exponential" ∨ func = "power_law" ∨ func = "prompt_delayed"
      ∨ func = "single_degenerate" then
    if kwargs.all (fun kw => (validKeys func).contains kw) then .ok ()
    else .error "TypeError: got an unexpected keyword argument"
  else .ok ()

/-- `snia_dtd` (snia.py lines 21-54).  The `TypeError` is caught inside
the function: the result is always returned normally, together with the
list of diagnostic messages printed on the way (the traceback print is
elided).  No exception ever propagates, which the return type records. -/
def snia_dtd (func : String) (kwargs : List String) : SniaParam × List String :=
  match applyDtd func kwargs with
  | .ok _ => (⟨func, kwargs⟩, [])
  | .error _ => (⟨func, kwargs⟩, [helpMessage])

/-- Modelled from the spec: the claim reads `snia_dtd` as *failing* with
an `InvalidParameterError` (a class that does not exist in the
repository) whose message lists all four keyword sets.  This definition
follows that wording, to be compared with `snia_dtd` above. -/
def snia_dtd_claimed (func : String) (kwargs : List String) :
    Except String SniaParam :=
  if kwargs.all (fun kw => (validKeys func).contains kw) then .ok ⟨func, kwargs⟩
  else .error helpMessage

/-! ### Exponential-model decay process iterated over timesteps -/

/-- One `snia_ev` call of the exponential model, as the (count,
reservoir) pair; the exponential branch always returns, so the error
case is vacuous. -/
def snia_exp_step (minT dt : ℚ) (tstep : ℕ) (Mwd : List ℚ)
    (dMwd sniaM : ℚ) : ℚ × List ℚ :=
  match snia_ev ⟨"exponential", minT, 0, 0⟩ tstep dt Mwd dMwd [] [] sniaM 0 [] with
  | .ok p => p
  | .error _ => (0, Mwd)

/-- Iterating `snia_ev` from timestep `t0` for `n` steps, accumulating
the exploded mass `count * snia_mass` and threading the reservoir. -/
def snia_exp_run (minT dt : ℚ) (t0 : ℕ) (dMwd sniaM : ℚ)
    (res : List ℚ) : ℕ → ℚ × List ℚ
  | 0 => (0, res)
  | n + 1 =>
    let p := snia_exp_run minT dt t0 dMwd sniaM res n
    let q := snia_exp_step minT dt (t0 + n) p.2 dMwd sniaM
    (p.1 + q.1 * sniaM, q.2)

/-- Modelled from the spec (the reordering that the spec warns must not
happen): decay the reservoir first, then compute the count from the
post-decay values. -/
def snia_exp_step_swapped (minT dt : ℚ) (tstep : ℕ) (Mwd : List ℚ)
    (dMwd sniaM : ℚ) : ℚ × List ℚ :=
  let ind : ℤ := (tstep : ℤ) - ⌈minT / dt⌉
  if 0 < ind then
    let k : ℕ := (ind + 1).toNat
    let decayed := (Mwd.take k).map (fun m => m * (1 - dMwd)) ++ Mwd.drop k
    (((decayed.take k).map (fun m => m * dMwd / sniaM)).sum, decayed)
  else (0, Mwd)

/-- The iterated run of the swapped-order step. -/
def snia_exp_run_swapped (minT dt : ℚ) (t0 : ℕ) (dMwd sniaM : ℚ)
    (res : List ℚ) : ℕ → ℚ × List ℚ
  | 0 => (0, res)
  | n + 1 =>
    let p := snia_exp_run_swapped minT dt t0 dMwd sniaM res n
    let q := snia_exp_step_swapped minT dt (t0 + n) p.2 dMwd sniaM
    (p.1 + q.1 * sniaM, q.2)

/-! ### Single-degenerate build: re-binning (snia.py lines 207-214) -/

/-- `ind_tbin = np.where(t2 % self.dt == 0)[0]` for the fine grid
`t2 = np.arange(29., t[-1]+1., 1.)`, whose entries are `29 + i`; `tEnd`
is `t[-1]` and `dt` is the coarse step, both integral in Myr. -/
def ind_tbin (tEnd dt : ℕ) : List ℕ :=
  (List.range (tEnd - 28)).filter (fun i => (29 + i) % dt == 0)

/-- `ria1[a:b].sum()`. -/
def sumRange (xs : List ℚ) (a b : ℕ) : ℚ := ((xs.drop a).take (b - a)).sum

/-- The re-binning loop of `snia_dtd_single_degenerate` (lines 208-211):
`ria[0] = ria1[:ind_tbin[0]].sum()` and, for `1 <= i <= n_steps-2`,
`ria[i] = ria1[ind_tbin[i-1]:ind_tbin[i]].sum()`, written as a recursion
on the boundary list (`prev` is `ind_tbin[i-1]`, initially 0).  When the
boundary list is exhausted early the Python code would raise
`IndexError`; the claims below always supply enough boundaries. -/
def rebinAux (ria1 : List ℚ) : ℕ → List ℕ → ℕ → List ℚ
  | _, _, 0 => []
  | _, [], _ + 1 => []
  | prev, b :: bs, n + 1 => sumRange ria1 prev b :: rebinAux ria1 b bs n

/-- `self.ria` as assigned by lines 208-211: `n_steps - 1` coarse bins
re-binned from the fine-grid rate `ria1`. -/
def sd_rebin (ria1 : List ℚ) (tbin : List ℕ) (n_steps : ℕ) : List ℚ :=
  rebinAux ria1 0 tbin (n_steps - 1)

/-! ### Single-degenerate build: IMF segment membership (lines 182-196) -/

/-- `np.around(x, decimals=5)` (the inputs used below avoid ties, so the
round-half-to-even detail of numpy is immaterial). -/
def round5 (x : ℚ) : ℚ := ((round (x * 100000) : ℤ) : ℚ) / 100000

/-- The predicate of the `np.where` used for segment `i` in the loop of
`snia_dtd_single_degenerate` (lines 182-196): the first segment compares
`np.around(m1low, decimals=5)` against `mass_breaks[0]` (with no breaks,
every index belongs), middle segments compare the raw `m1low` against
`mass_breaks[i-1]` and `mass_breaks[i]`, and the last segment compares
the raw `m1low` against `mass_breaks[-1]`. -/
def segMemb (m1low mass_breaks : List ℚ) (nAlpha i j : ℕ) : Bool :=
  if i = 0 then
    match mass_breaks with
    | [] => true
    | b0 :: _ => decide (round5 (m1low.getD j 0) ≤ b0)
  else if i ≠ nAlpha - 1 then
    decide (mass_breaks.getD (i - 1) 0 ≤ m1low.getD j 0
      ∧ m1low.getD j 0 ≤ mass_breaks.getD i 0)
  else
    decide (mass_breaks.getLast?.getD 0 ≤ m1low.getD j 0)

/-- `ind` for segment `i`: the (sorted) indices of the fine grid whose
`m1low` falls in the segment. -/
def segInd (m1low mass_breaks : List ℚ) (nAlpha i : ℕ) : List ℕ :=
  (List.range m1low.length).filter (segMemb m1low mass_breaks nAlpha i)

/-- `ind_int` for segment `i`, the indices whose `nm2` entry the loop
assigns: `ind[:-1]` for the `i == 0` branch and the middle branch, `ind`
itself for the last branch (`i != 0` and `i == len(alpha) - 1`). -/
def segIndInt (m1low mass_breaks : List ℚ) (nAlpha i : ℕ) : List ℕ :=
  if i = 0 then (segInd m1low mass_breaks nAlpha i).dropLast
  else if i ≠ nAlpha - 1 then (segInd m1low mass_breaks nAlpha i).dropLast
  else segInd m1low mass_breaks nAlpha i

/-- Modelled from the spec: the claim describes membership of *every*
segment as decided on the rounded `m1low`.  This predicate follows that
wording, to be compared with `segMemb` above. -/
def segMembClaimed (m1low mass_breaks : List ℚ) (nAlpha i j : ℕ) : Bool :=
  if i = 0 then
    match mass_breaks with
    | [] => true
    | b0 :: _ => decide (round5 (m1low.getD j 0) ≤ b0)
  else if i ≠ nAlpha - 1 then
    decide (mass_breaks.getD (i - 1) 0 ≤ round5 (m1low.getD j 0)
      ∧ round5 (m1low.getD j 0) ≤ mass_breaks.getD i 0)
  else
    decide (mass_breaks.getLast?.getD 0 ≤ round5 (m1low.getD j 0))

/-- Modelled from the spec: the claim has the *final* segment
(unconditionally) keep all of its indices, and every other segment drop
its last index.  To be compared with `segIndInt` above. -/
def segIndIntClaimed (m1low mass_breaks : List ℚ) (nAlpha i : ℕ) : List ℕ :=
  let ind := (List.range m1low.length).filter
    (segMembClaimed m1low mass_breaks nAlpha i)
  if i = nAlpha - 1 then ind else ind.dropLast

/-- The integer `ind_min_t` computed by the exponential branch equals
`tstep - ceil(min_time/dt)`. -/
theorem snia_ev_ind_min_t (tstep : ℕ) (minT dt : ℚ) :
    ((PyNum.int tstep).sub ((npCeil (minT / dt)).astypeInt)).toIntVal
      = (tstep : ℤ) - ⌈minT / dt⌉ := by
  have hceil : (npCeil (minT / dt)).astypeInt = .int ⌈minT / dt⌉ := by
    simp only [npCeil, PyNum.astypeInt, ratTrunc]
    rcases le_or_lt (0 : ℚ) ((⌈minT / dt⌉ : ℤ) : ℚ) with h | h
    · simp [h, Int.floor_intCast]
    · simp [not_le.mpr h, Int.ceil_intCast]
  rw [hceil]
  simp [PyNum.sub, PyNum.toIntVal]

/-- Sum of a list after scaling every element. -/
theorem list_sum_map_mul (l : List ℚ) (c : ℚ) :
    (l.map (fun m => m * c)).sum = l.sum * c := by
  induction l with
  | nil => simp
  | cons a t ih => simp [ih, add_mul]

/-- Exponential branch of `snia_ev` when no population is old enough. -/
theorem snia_ev_exp_le (minT dt dMwd sniaM mtot pp pd : ℚ) (tstep : ℕ)
    (Mwd ria sfr : List ℚ) (mstar : List (List ℚ))
    (h : (tstep : ℤ) - ⌈minT / dt⌉ ≤ 0) :
    snia_ev ⟨"exponential", minT, pp, pd⟩ tstep dt Mwd dMwd ria mstar sniaM mtot sfr
      = .ok (0, Mwd) := by
  simp only [snia_ev, snia_ev_ind_min_t, if_true]
  rw [if_neg (not_lt.mpr h)]

/-- Exponential branch of `snia_ev` when `ind_min_t > 0`: the count is
taken from the pre-decay reservoir, then the slice `[:ind_min_t+1]` is
scaled by `1 - dMwd`. -/
theorem snia_ev_exp_pos (minT dt dMwd sniaM mtot pp pd : ℚ) (tstep : ℕ)
    (Mwd ria sfr : List ℚ) (mstar : List (List ℚ))
    (h : 0 < (tstep : ℤ) - ⌈minT / dt⌉) :
    snia_ev ⟨"exponential", minT, pp, pd⟩ tstep dt Mwd dMwd ria mstar sniaM mtot sfr
      = .ok ((Mwd.take (((tstep : ℤ) - ⌈minT / dt⌉ + 1).toNat)).sum * dMwd / sniaM,
             (Mwd.take (((tstep : ℤ) - ⌈minT / dt⌉ + 1).toNat)).map
                 (fun m => m * (1 - dMwd))
               ++ Mwd.drop (((tstep : ℤ) - ⌈minT / dt⌉ + 1).toNat)) := by
  simp only [snia_ev, snia_ev_ind_min_t, if_true]
  rw [if_pos h]
  have hmap : (fun (m : ℚ) => m * dMwd / sniaM) = (fun m => m * (dMwd / sniaM)) := by
    funext m
    rw [mul_div_assoc]
  rw [hmap, list_sum_map_mul, mul_div_assoc]

/-- C1: for the exponential model, `snia_ev` computes
`ind_min_t = tstep - ceil(min_snia_time/dt)`; when `ind_min_t <= 0` it
returns count 0 and leaves `Mwd_Ia` unchanged, and when `ind_min_t > 0`
it returns `sum(Mwd_Ia[0..ind_min_t]) * dMwd / snia_mass` computed from
the pre-decay reservoir and scales exactly the entries
`Mwd_Ia[0..ind_min_t]` by `1 - dMwd` (Python slice `[:ind_min_t+1]`);
in particular with `dt = 30` and `min_snia_time = 150`, at `tstep = 4`
the count is 0 and the reservoir is unchanged for every state. -/
theorem snia_ev_exponential_spec
    (minT dt dMwd sniaM mtot pp pd : ℚ) (tstep : ℕ)
    (Mwd ria sfr : List ℚ) (mstar : List (List ℚ)) :
    ((tstep : ℤ) - ⌈minT / dt⌉ ≤ 0 →
      snia_ev ⟨"exponential", minT, pp, pd⟩ tstep dt Mwd dMwd ria mstar sniaM mtot sfr
        = .ok (0, Mwd)) ∧
    (0 < (tstep : ℤ) - ⌈minT / dt⌉ →
      snia_ev ⟨"exponential", minT, pp, pd⟩ tstep dt Mwd dMwd ria mstar sniaM mtot sfr
        = .ok ((Mwd.take (((tstep : ℤ) - ⌈minT / dt⌉ + 1).toNat)).sum * dMwd / sniaM,
               (Mwd.take (((tstep : ℤ) - ⌈minT / dt⌉ + 1).toNat)).map
                   (fun m => m * (1 - dMwd))
                 ++ Mwd.drop (((tstep : ℤ) - ⌈minT / dt⌉ + 1).toNat))) ∧
    (minT = 150 → dt = 30 → tstep = 4 →
      snia_ev ⟨"exponential", minT, pp, pd⟩ tstep dt Mwd dMwd ria mstar sniaM mtot sfr
        = .ok (0, Mwd)) := by
  refine ⟨snia_ev_exp_le minT dt dMwd sniaM mtot pp pd tstep Mwd ria sfr mstar,
    snia_ev_exp_pos minT dt dMwd sniaM mtot pp pd tstep Mwd ria sfr mstar, ?_⟩
  intro e1 e2 e3
  subst e1; subst e2; subst e3
  exact snia_ev_exp_le 150 30 dMwd sniaM mtot pp pd 4 Mwd ria sfr mstar (by norm_num)

/-- Witness for `snia_ev_exponential_spec` at a concrete eligible input
(`tstep = 6`, `dt = 30`, `min_snia_time = 150`, so `ind_min_t = 1`). -/
theorem snia_ev_exponential_spec_witness :
    snia_ev ⟨"exponential", 150, 0, 0⟩ 6 30 [2, 4, 8] (1/2) [] [] 1 0 []
      = .ok (3, [1, 2, 8]) := by
  have h := (snia_ev_exponential_spec 150 30 (1/2) 1 0 0 0 6 [2, 4, 8] [] []
    []).2.1 (by norm_num)
  rw [h]
  norm_num [List.take, List.drop]

/-- Sum of an elementwise product of two equal-length lists, as a sum
over indices. -/
theorem zipWith_mul_sum (a : List ℚ) : ∀ b : List ℚ, a.length = b.length →
    (List.zipWith (fun x y => x * y) a b).sum
      = ∑ i in Finset.range a.length, a.getD i 0 * b.getD i 0 := by
  induction a with
  | nil => intro b _; simp
  | cons x a ih =>
    intro b h
    cases b with
    | nil => simp at h
    | cons y b =>
      simp only [List.zipWith_cons_cons, List.sum_cons, List.length_cons]
      rw [Finset.sum_range_succ']
      simp only [List.getD_cons_succ, List.getD_cons_zero]
      rw [ih b (by simpa using h)]
      exact add_comm _ _

/-- The reversed-history product sum computed by the `power_law` and
`single_degenerate` branches of `snia_ev` is the causal convolution
`sum_i ria[i] * rowsum(mstar[tstep - i])`. -/
theorem conv_sum_eq (ria : List ℚ) (mstar : List (List ℚ)) (tstep : ℕ)
    (hr : tstep ≤ ria.length) (hm : tstep + 1 ≤ mstar.length) :
    (List.zipWith (fun x y => x * y) (ria.take tstep)
        (((mstar.drop 1).take tstep).map (fun row => row.sum)).reverse).sum
      = ∑ i in Finset.range tstep, ria.getD i 0 * (mstar.getD (tstep - i) []).sum := by
  have ha : (ria.take tstep).length = tstep := by
    simp [List.length_take]
    omega
  have hc : (((mstar.drop 1).take tstep).map (fun row => row.sum)).length = tstep := by
    simp [List.length_take, List.length_drop]
    omega
  have hb : ((((mstar.drop 1).take tstep).map (fun row => row.sum)).reverse).length = tstep := by
    rw [List.length_reverse]
    exact hc
  rw [zipWith_mul_sum _ _ (by rw [ha, hb]), ha]
  refine Finset.sum_congr rfl ?_
  intro i hi
  have hilt : i < tstep := Finset.mem_range.mp hi
  have e1 : (ria.take tstep).getD i 0 = ria.getD i 0 := by
    rw [List.getD_eq_getElem?_getD, List.getD_eq_getElem?_getD,
      List.getElem?_take, if_pos hilt]
  have e2 : ((((mstar.drop 1).take tstep).map (fun row => row.sum)).reverse).getD i 0
      = (mstar.getD (tstep - i) []).sum := by
    rw [List.getD_eq_getElem?_getD,
      List.getElem?_reverse (by rw [hc]; exact hilt), hc]
    rw [List.getElem?_map, List.getElem?_take, if_pos (by omega), List.getElem?_drop]
    have e3 : 1 + (tstep - 1 - i) = tstep - i := by omega
    rw [e3, List.getD_eq_getElem?_getD]
    cases mstar[tstep - i]? with
    | none => simp
    | some row => simp
  rw [e1, e2]

/-- The `power_law` / `single_degenerate` branch of `snia_ev` as a
closed form, under the depth hypotheses that make the numpy shapes
agree. -/
theorem snia_ev_conv_ok
    (func : String) (minT dt dMwd sniaM mtot pp pd : ℚ) (tstep : ℕ)
    (Mwd ria sfr : List ℚ) (mstar : List (List ℚ))
    (hfunc : func = "power_law" ∨ func = "single_degenerate")
    (hr : tstep ≤ ria.length) (hm : tstep + 1 ≤ mstar.length) :
    snia_ev ⟨func, minT, pp, pd⟩ tstep dt Mwd dMwd ria mstar sniaM mtot sfr
      = .ok (∑ i in Finset.range tstep,
               ria.getD i 0 * (mstar.getD (tstep - i) []).sum, Mwd) := by
  have hlen : (ria.take tstep).length
      = (((mstar.drop 1).take tstep).map (fun row => row.sum)).length := by
    simp [List.length_take, List.length_drop]
    omega
  rcases hfunc with h | h <;> subst h
  · simp only [snia_ev]
    rw [if_neg (by decide), if_pos (Or.inl trivial), if_pos hlen,
      conv_sum_eq ria mstar tstep hr hm]
  · simp only [snia_ev]
    rw [if_neg (by decide), if_pos (Or.inr trivial), if_pos hlen,
      conv_sum_eq ria mstar tstep hr hm]

/-- C2: for the `power_law` and `single_degenerate` models, for every
`tstep` and every star-formation history deep enough for the slice
`mstar[1:tstep+1]` to have `tstep` rows, `snia_ev` returns
`count = sum_{i=0}^{tstep-1} ria[i] * rowsum(mstar[tstep - i])` (the
mstar row of step `tstep - i` summed over species/mass bins) and leaves
the reservoir untouched; in particular at `tstep = 0` the count is 0. -/
theorem snia_ev_convolution_spec
    (func : String) (minT dt dMwd sniaM mtot pp pd : ℚ) (tstep : ℕ)
    (Mwd ria sfr : List ℚ) (mstar : List (List ℚ))
    (hfunc : func = "power_law" ∨ func = "single_degenerate")
    (hr : tstep ≤ ria.length) (hm : tstep + 1 ≤ mstar.length) :
    snia_ev ⟨func, minT, pp, pd⟩ tstep dt Mwd dMwd ria mstar sniaM mtot sfr
      = .ok (∑ i in Finset.range tstep,
               ria.getD i 0 * (mstar.getD (tstep - i) []).sum, Mwd) ∧
    snia_ev ⟨func, minT, pp, pd⟩ 0 dt Mwd dMwd ria mstar sniaM mtot sfr
      = .ok (0, Mwd) := by
  constructor
  · exact snia_ev_conv_ok func minT dt dMwd sniaM mtot pp pd tstep
      Mwd ria sfr mstar hfunc hr hm
  · rcases hfunc with h | h <;> subst h
    · simp only [snia_ev]
      rw [if_neg (by decide), if_pos (Or.inl trivial)]
      simp
    · simp only [snia_ev]
      rw [if_neg (by decide), if_pos (Or.inr trivial)]
      simp

/-- Witness for `snia_ev_convolution_spec` at a concrete input. -/
theorem snia_ev_convolution_spec_witness :
    snia_ev ⟨"power_law", 0, 0, 0⟩ 2 30 [] 0 [1/2, 1/4, 9]
        [[5, 5], [1, 2], [3, 4]] 1 0 []
      = .ok (17/4, []) := by
  have h := (snia_ev_convolution_spec "power_law" 0 30 0 1 0 0 0 2
    [] [1/2, 1/4, 9] [] [[5, 5], [1, 2], [3, 4]]
    (Or.inl rfl) (by norm_num) (by norm_num)).1
  rw [h]
  norm_num [Finset.sum_range_succ, List.getD]

/-- C5 (code bug): in the `prompt_delayed` branch of `snia_ev`, the
index `ind = tstep - np.ceil(min_time/dt)` is computed without
`.astype(int)` (unlike the exponential branch two lines above), so it is
float-typed and `sfr[ind]` raises `IndexError` whenever `ind > 0`;
with `min_time = 150`, `dt = 30` the boundary `ind <= 0` (here
`tstep = 4`) still yields the zero prompt contribution without error. -/
theorem snia_ev_prompt_delayed_float_index :
    snia_ev ⟨"prompt_delayed", 150, 100, 1⟩ 6 30 [] 0 [] [] 1 5
        [0, 1, 2, 3, 4, 5, 6, 7, 8, 9]
      = .error "IndexError: only integers may be used as indices" ∧
    snia_ev ⟨"prompt_delayed", 150, 100, 1⟩ 4 30 [] 0 [] [] 1 5
        [0, 1, 2, 3, 4, 5, 6, 7, 8, 9]
      = .ok ((0 + 5 * 1) * 30, []) := by
  constructor <;>
    · norm_num [snia_ev, pyGet, npCeil, PyNum.sub, PyNum.val]
      rw [if_neg (by decide), if_neg (by decide)]

/-- Entrywise description of the reservoir returned by the exponential
branch: entries below `k` are scaled by `1 - dMwd`, entries from `k` on
are untouched. -/
theorem scaled_prefix_getElem (Mwd : List ℚ) (dMwd : ℚ) (k : ℕ) :
    (∀ i, k ≤ i →
      ((Mwd.take k).map (fun m => m * (1 - dMwd)) ++ Mwd.drop k)[i]? = Mwd[i]?) ∧
    (∀ i, i < k →
      ((Mwd.take k).map (fun m => m * (1 - dMwd)) ++ Mwd.drop k)[i]?
        = (Mwd[i]?).map (fun m => m * (1 - dMwd))) := by
  have hlen : ((Mwd.take k).map (fun m => m * (1 - dMwd))).length = min k Mwd.length := by
    simp [List.length_take]
  constructor
  · intro i hi
    have hge : ((Mwd.take k).map (fun m => m * (1 - dMwd))).length ≤ i := by
      rw [hlen]; omega
    rw [List.getElem?_append_right hge, hlen, List.getElem?_drop]
    rcases le_or_lt k Mwd.length with hk | hk
    · have : min k Mwd.length = k := by omega
      rw [this]
      congr 1
      omega
    · have : min k Mwd.length = Mwd.length := by omega
      rw [this]
      rw [List.getElem?_eq_none (by omega), List.getElem?_eq_none (by omega)]
  · intro i hi
    rcases lt_or_le i Mwd.length with him | him
    · have hil : i < ((Mwd.take k).map (fun m => m * (1 - dMwd))).length := by
        rw [hlen]; omega
      rw [List.getElem?_append, if_pos hil, List.getElem?_map,
        List.getElem?_take, if_pos hi]
    · have hge : ((Mwd.take k).map (fun m => m * (1 - dMwd))).length ≤ i := by
        rw [hlen]; omega
      rw [List.getElem?_append_right hge, hlen, List.getElem?_drop]
      rw [List.getElem?_eq_none (by omega), List.getElem?_eq_none (by omega)]
      rfl

/-- C6: the `power_law`, `prompt_delayed` and `single_degenerate`
branches of `snia_ev` never change the reservoir: whenever they return,
the reservoir handed back is the input list (and, being Lean functions,
all branches are pure functions of their arguments).  Only the
`exponential` branch rewrites `Mwd_Ia`, and there exactly the entries of
the slice `[:ind_min_t+1]` are scaled while every entry from index
`ind_min_t + 1` on keeps its value. -/
theorem snia_ev_frame_spec
    (func : String) (minT dt dMwd sniaM mtot pp pd : ℚ) (tstep : ℕ)
    (Mwd ria sfr : List ℚ) (mstar : List (List ℚ)) :
    (func = "power_law" ∨ func = "prompt_delayed" ∨ func = "single_degenerate" →
      ∀ c r, snia_ev ⟨func, minT, pp, pd⟩ tstep dt Mwd dMwd ria mstar sniaM mtot sfr
          = .ok (c, r) → r = Mwd) ∧
    (∀ c r, snia_ev ⟨"exponential", minT, pp, pd⟩ tstep dt Mwd dMwd ria mstar sniaM mtot sfr
        = .ok (c, r) →
      (∀ i, (((tstep : ℤ) - ⌈minT / dt⌉ + 1).toNat) ≤ i → r[i]? = Mwd[i]?) ∧
      (0 < (tstep : ℤ) - ⌈minT / dt⌉ →
        ∀ i, i < (((tstep : ℤ) - ⌈minT / dt⌉ + 1).toNat) →
          r[i]? = (Mwd[i]?).map (fun m => m * (1 - dMwd)))) := by
  constructor
  · rintro (h | h | h) c r hev <;> subst h
    · rcases le_or_lt ((tstep : ℤ) - ⌈minT / dt⌉) 0 with hind | hind
      all_goals
        simp only [snia_ev] at hev
        rw [if_neg (by decide), if_pos (Or.inl trivial)] at hev
        by_cases hlen : (List.take tstep ria).length
            = (((mstar.drop 1).take tstep).map (fun row => row.sum)).length
        · rw [if_pos hlen] at hev
          cases hev
          rfl
        · rw [if_neg hlen] at hev
          exact absurd hev (by simp)
    · simp only [snia_ev] at hev
      rw [if_neg (by decide), if_neg (by decide)] at hev
      by_cases hpos : 0 < ((PyNum.int tstep).sub (npCeil (minT / dt))).val
      · rw [if_pos hpos] at hev
        rcases hget : pyGet sfr ((PyNum.int tstep).sub (npCeil (minT / dt))) with s | e
        · rw [hget] at hev
          simp at hev
        · rw [hget] at hev
          cases hev
          rfl
      · rw [if_neg hpos] at hev
        cases hev
        rfl
    · simp only [snia_ev] at hev
      rw [if_neg (by decide), if_pos (Or.inr trivial)] at hev
      by_cases hlen : (List.take tstep ria).length
          = (((mstar.drop 1).take tstep).map (fun row => row.sum)).length
      · rw [if_pos hlen] at hev
        cases hev
        rfl
      · rw [if_neg hlen] at hev
        exact absurd hev (by simp)
  · intro c r hev
    rcases le_or_lt ((tstep : ℤ) - ⌈minT / dt⌉) 0 with hind | hind
    · rw [snia_ev_exp_le minT dt dMwd sniaM mtot pp pd tstep
        Mwd ria sfr mstar hind] at hev
      cases hev
      exact ⟨fun i _ => rfl, fun habs => absurd habs (not_lt.mpr hind)⟩
    · rw [snia_ev_exp_pos minT dt dMwd sniaM mtot pp pd tstep
        Mwd ria sfr mstar hind] at hev
      cases hev
      exact ⟨(scaled_prefix_getElem Mwd dMwd _).1,
        fun _ => (scaled_prefix_getElem Mwd dMwd _).2⟩

/-- Witness for `snia_ev_frame_spec` at a concrete input. -/
theorem snia_ev_frame_spec_witness : ([8, 6] : List ℚ) = [8, 6] := by
  have hev : snia_ev ⟨"power_law", 0, 0, 0⟩ 1 30 [8, 6] 0 [7] [[0], [1]] 1 0 []
      = .ok (7, [8, 6]) := by
    rw [snia_ev_conv_ok "power_law" 0 30 0 1 0 0 0 1 [8, 6] [7] []
      [[0], [1]] (Or.inl rfl) (by norm_num) (by norm_num)]
    norm_num [Finset.sum_range_succ, List.getD]
  exact (snia_ev_frame_spec "power_law" 0 30 0 1 0 0 0 1
    [8, 6] [7] [] [[0], [1]]).1 (Or.inl rfl) 7 [8, 6] hev

/-- Scaling every entry scales the windowed sum. -/
theorem sumWindow_map_mul (t : List ℚ) : ∀ (vals : List ℚ) (c : ℚ),
    sumWindow t (vals.map (fun v => v * c)) = sumWindow t vals * c := by
  induction t with
  | nil => intro vals c; simp [sumWindow]
  | cons ti t ih =>
    intro vals c
    cases vals with
    | nil => simp [sumWindow]
    | cons v vs =>
      simp only [sumWindow, List.map_cons, List.zipWith_cons_cons, List.sum_cons]
      have := ih vs c
      simp only [sumWindow] at this
      rw [this, add_mul, ite_mul, zero_mul]

/-- C3: for every slope (the float power `(.)**slope` entering as the
arbitrary function `pw`), every `min_snia_time` and every
`nia_per_mstar`, `dtd_powerlaw` yields `ria[i] = (t[i]**slope if
t[i] >= min_snia_time else 0)` scaled by the single constant
`nia_per_mstar / S` where `S` is the pre-normalization sum over the
window `t <= 10000`; provided `S` is nonzero, the normalized sum over
that window is exactly `nia_per_mstar`. -/
theorem dtd_powerlaw_spec (t : List ℚ) (minT nia : ℚ) (pw : ℚ → ℚ)
    (hS : sumWindow t (t.map (fun ti => if minT ≤ ti then pw ti else 0)) ≠ 0) :
    sumWindow t (dtd_powerlaw t minT nia pw) = nia ∧
    ∀ i : ℕ, (dtd_powerlaw t minT nia pw)[i]?
        = (t[i]?).map (fun ti => (if minT ≤ ti then pw ti else 0)
            * (nia / sumWindow t (t.map (fun tj => if minT ≤ tj then pw tj else 0)))) := by
  constructor
  · show sumWindow t ((t.map (fun ti => if minT ≤ ti then pw ti else 0)).map
      (fun r => r * (nia / sumWindow t (t.map (fun ti => if minT ≤ ti then pw ti else 0))))) = nia
    rw [sumWindow_map_mul, mul_comm, div_mul_cancel₀ nia hS]
  · intro i
    show ((t.map (fun ti => if minT ≤ ti then pw ti else 0)).map
      (fun r => r * (nia / sumWindow t (t.map (fun ti => if minT ≤ ti then pw ti else 0)))))[i]? = _
    rw [List.getElem?_map, List.getElem?_map, Option.map_map]
    rfl

/-- Witness for `dtd_powerlaw_spec` at `t = [0, 50]`,
`min_snia_time = 40`, `nia_per_mstar = 22`, `pw = id`. -/
theorem dtd_powerlaw_spec_witness :
    sumWindow [0, 50] (dtd_powerlaw [0, 50] 40 22 (fun x => x)) = 22 := by
  have h := (dtd_powerlaw_spec [0, 50] 40 22 (fun x => x)
    (by norm_num [sumWindow, List.zipWith])).1
  exact h

/-- C4 counterexample: with the unknown keyword `foo`, the real
`snia_dtd` returns its params dict normally (printing the diagnostic
that lists all four keyword sets), whereas the claimed behaviour is a
raised `InvalidParameterError`; no exception leaves `snia_dtd`. -/
theorem snia_dtd_foo_counterexample :
    snia_dtd "exponential" ["foo"] = (⟨"exponential", ["foo"]⟩, [helpMessage]) ∧
    snia_dtd_claimed "exponential" ["foo"] = .error helpMessage := by
  constructor
  · rfl
  · rfl

/-- C4 (amended): for each of the four model names, a keyword-argument
set containing a keyword the selected model does not recognize makes the
dispatched call raise `TypeError`, which `snia_dtd` catches; it prints
the diagnostic message enumerating (its rendition of) the valid keyword
sets of all four models and returns the params dict normally — it does
not raise. -/
theorem snia_dtd_prints_and_returns (func : String) (kwargs : List String)
    (hfunc : func = "exponential" ∨ func = "power_law"
      ∨ func = "prompt_delayed" ∨ func = "single_degenerate")
    (hbad : ∃ kw ∈ kwargs, (validKeys func).contains kw = false) :
    snia_dtd func kwargs = (⟨func, kwargs⟩, [helpMessage]) := by
  have hall : kwargs.all (fun kw => (validKeys func).contains kw) = false := by
    obtain ⟨kw, hmem, hkw⟩ := hbad
    rw [List.all_eq_false]
    exact ⟨kw, hmem, by simpa using hkw⟩
  have hnot : ¬ (kwargs.all (fun kw => (validKeys func).contains kw) = true) := by
    rw [hall]
    exact Bool.false_ne_true
  have happ : applyDtd func kwargs
      = .error "TypeError: got an unexpected keyword argument" := by
    simp only [applyDtd]
    rw [if_pos hfunc, if_neg hnot]
  simp only [snia_dtd, happ]

/-- Witness for `snia_dtd_prints_and_returns`: `foo=1` passed to the
exponential model. -/
theorem snia_dtd_prints_and_returns_witness :
    snia_dtd "exponential" ["foo"] = (⟨"exponential", ["foo"]⟩, [helpMessage]) :=
  snia_dtd_prints_and_returns "exponential" ["foo"] (Or.inl rfl)
    ⟨"foo", by decide, by decide⟩

/-- One exponential `snia_ev` call on a single-entry reservoir at an
eligible timestep: the count is the pre-decay entry times
`dMwd / snia_mass` and the entry is then scaled by `1 - dMwd`. -/
theorem snia_exp_step_single (minT dt dMwd sniaM x : ℚ) (tstep : ℕ)
    (h : 0 < (tstep : ℤ) - ⌈minT / dt⌉) :
    snia_exp_step minT dt tstep [x] dMwd sniaM
      = (x * dMwd / sniaM, [x * (1 - dMwd)]) := by
  have hk : 1 ≤ (((tstep : ℤ) - ⌈minT / dt⌉ + 1)).toNat := by omega
  have htake : ([x] : List ℚ).take (((tstep : ℤ) - ⌈minT / dt⌉ + 1)).toNat = [x] :=
    List.take_of_length_le (by simpa using hk)
  have hdrop : ([x] : List ℚ).drop (((tstep : ℤ) - ⌈minT / dt⌉ + 1)).toNat = [] :=
    List.drop_eq_nil_of_le (by simpa using hk)
  have hev := snia_ev_exp_pos minT dt dMwd sniaM 0 0 0 tstep [x] [] [] [] h
  rw [htake, hdrop] at hev
  unfold snia_exp_step
  rw [hev]
  simp

/-- Closed form of the iterated exponential run on a one-entry
reservoir: after `n` eligible steps the cumulative exploded mass is
`M * (1 - (1-dMwd)^n)` and the entry holds `M * (1-dMwd)^n`. -/
theorem snia_exp_run_closed (minT dt dMwd sniaM M : ℚ) (t0 : ℕ)
    (hs : sniaM ≠ 0) (ht : ⌈minT / dt⌉ < (t0 : ℤ)) :
    ∀ n : ℕ, snia_exp_run minT dt t0 dMwd sniaM [M] n
      = (M * (1 - (1 - dMwd) ^ n), [M * (1 - dMwd) ^ n]) := by
  intro n
  induction n with
  | zero =>
    simp [snia_exp_run]
  | succ n ih =>
    have hstep : 0 < ((t0 + n : ℕ) : ℤ) - ⌈minT / dt⌉ := by push_cast; omega
    rw [snia_exp_run, ih, snia_exp_step_single minT dt dMwd sniaM _ _ hstep]
    have hcancel : M * (1 - dMwd) ^ n * dMwd / sniaM * sniaM
        = M * (1 - dMwd) ^ n * dMwd := div_mul_cancel₀ _ hs
    rw [Prod.mk.injEq]
    constructor
    · rw [hcancel]
      ring
    · rw [List.cons.injEq]
      exact ⟨by ring, rfl⟩

/-- C7: exponential-model mass conservation.  With `0 < dMwd < 1`, for a
reservoir entry holding deposited mass `M`, the cumulative exploded mass
(`count * snia_mass` accumulated by iterating `snia_ev`) over `n`
consecutive eligible steps equals `M * (1 - (1-dMwd)^n)`; this converges
to `M` as `n` grows (for every positive `ε` it comes within `ε` of `M`
from below eventually); and the pre-decay count order is load-bearing:
the swapped order (decay first, count after) already differs at the
first step whenever `M > 0`. -/
theorem snia_exp_mass_conservation
    (minT dt dMwd sniaM M : ℚ) (t0 : ℕ)
    (hd0 : 0 < dMwd) (hd1 : dMwd < 1) (hs : sniaM ≠ 0) (hM : 0 ≤ M)
    (ht : ⌈minT / dt⌉ < (t0 : ℤ)) :
    (∀ n : ℕ, (snia_exp_run minT dt t0 dMwd sniaM [M] n).1
        = M * (1 - (1 - dMwd) ^ n)) ∧
    (∀ ε : ℚ, 0 < ε → ∃ N : ℕ, ∀ n, N ≤ n →
        0 ≤ M - (snia_exp_run minT dt t0 dMwd sniaM [M] n).1 ∧
        M - (snia_exp_run minT dt t0 dMwd sniaM [M] n).1 < ε) ∧
    (0 < M →
      (snia_exp_run_swapped minT dt t0 dMwd sniaM [M] 1).1
        ≠ (snia_exp_run minT dt t0 dMwd sniaM [M] 1).1) := by
  have hr0 : (0 : ℚ) ≤ 1 - dMwd := by linarith
  have hr1 : 1 - dMwd < 1 := by linarith
  have hclosed := snia_exp_run_closed minT dt dMwd sniaM M t0 hs ht
  have hfst : ∀ n : ℕ, (snia_exp_run minT dt t0 dMwd sniaM [M] n).1
      = M * (1 - (1 - dMwd) ^ n) := by
    intro n
    rw [hclosed n]
  refine ⟨hfst, ?_, ?_⟩
  · intro ε hε
    have hM1 : (0 : ℚ) < M + 1 := by linarith
    obtain ⟨N, hN⟩ := exists_pow_lt_of_lt_one (div_pos hε hM1) hr1
    refine ⟨N, fun n hn => ?_⟩
    have hrem : M - (snia_exp_run minT dt t0 dMwd sniaM [M] n).1
        = M * (1 - dMwd) ^ n := by
      rw [hfst n]
      ring
    constructor
    · rw [hrem]
      positivity
    · rw [hrem]
      have h1 : (1 - dMwd) ^ n ≤ (1 - dMwd) ^ N :=
        pow_le_pow_of_le_one hr0 (by linarith) hn
      have h2 : M * (1 - dMwd) ^ n ≤ M * (1 - dMwd) ^ N :=
        mul_le_mul_of_nonneg_left h1 hM
      have h3 : M * (1 - dMwd) ^ N ≤ M * (ε / (M + 1)) :=
        mul_le_mul_of_nonneg_left (le_of_lt hN) hM
      have h4 : M * (ε / (M + 1)) < ε := by
        rw [mul_comm, div_mul_eq_mul_div, div_lt_iff₀ hM1]
        nlinarith
      linarith
  · intro hMpos
    have hswap : (snia_exp_run_swapped minT dt t0 dMwd sniaM [M] 1).1
        = M * (1 - dMwd) * dMwd := by
      have hstep : 0 < ((t0 + 0 : ℕ) : ℤ) - ⌈minT / dt⌉ := by push_cast; omega
      have hk : 1 ≤ ((((t0 + 0 : ℕ) : ℤ) - ⌈minT / dt⌉ + 1)).toNat := by omega
      have htake : ([M] : List ℚ).take
          ((((t0 + 0 : ℕ) : ℤ) - ⌈minT / dt⌉ + 1)).toNat = [M] :=
        List.take_of_length_le (by simpa using hk)
      have hdrop : ([M] : List ℚ).drop
          ((((t0 + 0 : ℕ) : ℤ) - ⌈minT / dt⌉ + 1)).toNat = [] :=
        List.drop_eq_nil_of_le (by simpa using hk)
      have htake2 : ([M * (1 - dMwd)] : List ℚ).take
          ((((t0 + 0 : ℕ) : ℤ) - ⌈minT / dt⌉ + 1)).toNat = [M * (1 - dMwd)] :=
        List.take_of_length_le (by simpa using hk)
      simp only [snia_exp_run_swapped, snia_exp_step_swapped, if_pos hstep,
        htake, hdrop, List.map_cons, List.map_nil, List.append_nil, htake2,
        List.sum_cons, List.sum_nil]
      rw [add_zero, zero_add, div_mul_cancel₀ _ hs]
    rw [hswap, hfst 1]
    intro heq
    rw [pow_one] at heq
    nlinarith [mul_pos (mul_pos hMpos hd0) hd0]

/-- Witness for `snia_exp_mass_conservation` at concrete parameters. -/
theorem snia_exp_mass_conservation_witness :
    (snia_exp_run 150 30 6 (1/2) 2 [1] 2).1 = 1 * (1 - (1 - (1:ℚ)/2) ^ 2) :=
  (snia_exp_mass_conservation 150 30 (1/2) 2 1 6 (by norm_num) (by norm_num)
    (by norm_num) (by norm_num) (by norm_num)).1 2

/-- Adjacent range sums concatenate. -/
theorem sumRange_add (xs : List ℚ) (a b c : ℕ) (hab : a ≤ b) (hbc : b ≤ c) :
    sumRange xs a b + sumRange xs b c = sumRange xs a c := by
  unfold sumRange
  have h1 : c - a = (b - a) + (c - b) := by omega
  have h2 : (xs.drop a).drop (b - a) = xs.drop b := by
    rw [List.drop_drop]
    congr 1
    omega
  rw [h1, List.take_add, List.sum_append, h2]

/-- In a `≤`-chain starting at `a`, every element dominates `a`. -/
theorem chain_le_getD (m : ℕ) : ∀ (l : List ℕ) (a : ℕ), m ≤ l.length →
    List.Chain' (· ≤ ·) (a :: l) → a ≤ (a :: l).getD m 0 := by
  induction m with
  | zero =>
    intro l a _ _
    simp [List.getD]
  | succ m ih =>
    intro l a hlen hchain
    cases l with
    | nil => simp at hlen
    | cons b bs =>
      rw [List.getD_cons_succ]
      exact le_trans (List.chain'_cons.mp hchain).1
        (ih bs b (by simpa using hlen) (List.chain'_cons.mp hchain).2)

/-- Telescoping: the total of the re-binned values is the prefix sum of
the fine-grid rate up to the last boundary used. -/
theorem rebinAux_sum (ria1 : List ℚ) : ∀ (m : ℕ) (tbin : List ℕ) (prev : ℕ),
    m ≤ tbin.length → List.Chain' (· ≤ ·) (prev :: tbin) →
    (rebinAux ria1 prev tbin m).sum
      = sumRange ria1 prev ((prev :: tbin).getD m 0) := by
  intro m
  induction m with
  | zero =>
    intro tbin prev _ _
    simp [rebinAux, sumRange, List.getD]
  | succ m ih =>
    intro tbin prev hlen hchain
    cases tbin with
    | nil => simp at hlen
    | cons b bs =>
      rw [rebinAux, List.sum_cons,
        ih bs b (by simpa using hlen) hchain.tail, List.getD_cons_succ]
      exact sumRange_add ria1 prev b _ (List.chain'_cons.mp hchain).1
        (chain_le_getD m bs b (by simpa using hlen) hchain.tail)

/-- Entrywise description of the re-binned list. -/
theorem rebinAux_getD (ria1 : List ℚ) : ∀ (i m : ℕ) (tbin : List ℕ) (prev : ℕ),
    i < m → m ≤ tbin.length →
    (rebinAux ria1 prev tbin m).getD i 0
      = sumRange ria1 ((prev :: tbin).getD i 0) (tbin.getD i 0) := by
  intro i
  induction i with
  | zero =>
    intro m tbin prev him hlen
    cases m with
    | zero => omega
    | succ m =>
      cases tbin with
      | nil => simp at hlen
      | cons b bs => rw [rebinAux]; simp [List.getD]
  | succ i ih =>
    intro m tbin prev him hlen
    cases m with
    | zero => omega
    | succ m =>
      cases tbin with
      | nil => simp at hlen
      | cons b bs =>
        rw [rebinAux, List.getD_cons_succ,
          ih m bs b (by omega) (by simpa using hlen), List.getD_cons_succ,
          List.getD_cons_succ]

/-- The boundary indices are an increasing chain when prefixed with 0. -/
theorem ind_tbin_chain (tEnd dt : ℕ) :
    List.Chain' (· ≤ ·) (0 :: ind_tbin tEnd dt) := by
  have hp : (ind_tbin tEnd dt).Pairwise (· < ·) :=
    List.Pairwise.filter _ (List.pairwise_lt_range _)
  rw [List.chain'_cons']
  exact ⟨fun b _ => Nat.zero_le b, (hp.imp le_of_lt).chain'⟩

/-- C8 counterexample: with `dt = 30` and `t[-1] = 60` (`n_steps = 3`),
the fine grid is `t2 = 29..60` (32 entries) and the boundaries are at
fine indices 1 and 31; re-binning the constant rate 1 gives bins
`[1, 30]`, so the final fine-grid entry (index 31, at `t2 = 60`) lands
in no coarse bin: the re-binning is not a partition of `ria1`. -/
theorem sd_rebin_counterexample :
    (sd_rebin (List.replicate 32 (1:ℚ)) (ind_tbin 60 30) 3).sum
      ≠ (List.replicate 32 (1:ℚ)).sum := by
  have htbin : ind_tbin 60 30 = [1, 31] := by decide
  have h1 : (sd_rebin (List.replicate 32 (1:ℚ)) (ind_tbin 60 30) 3).sum = 31 := by
    rw [htbin]
    show (rebinAux (List.replicate 32 (1:ℚ)) 0 [1, 31] 2).sum = 31
    rw [rebinAux, rebinAux, rebinAux]
    simp [sumRange, List.drop_replicate, List.take_replicate, List.sum_replicate]
    norm_num
  have h2 : (List.replicate 32 (1:ℚ)).sum = 32 := by
    rw [List.sum_replicate]
    norm_num
  rw [h1, h2]
  norm_num

/-- C8 (amended): the first coarse bin is the sum of `ria1` before the
first boundary, bin `i >= 1` is the sum between boundaries `i-1` and
`i`, and the bins tile `ria1` only up to boundary `n_steps - 2`: the
total re-binned rate equals the prefix sum of `ria1` up to fine index
`ind_tbin[n_steps - 2]`, so the fine-grid entries from the last used
boundary on (in the standard setup exactly the final entry, at
`t2 = t[-1]`) are dropped rather than binned. -/
theorem sd_rebin_partition_spec (ria1 : List ℚ) (tEnd dt n_steps : ℕ)
    (hn : 2 ≤ n_steps) (hlen : n_steps - 1 ≤ (ind_tbin tEnd dt).length) :
    ((sd_rebin ria1 (ind_tbin tEnd dt) n_steps).getD 0 0
        = sumRange ria1 0 ((ind_tbin tEnd dt).getD 0 0)) ∧
    (∀ i, 1 ≤ i → i < n_steps - 1 →
      (sd_rebin ria1 (ind_tbin tEnd dt) n_steps).getD i 0
        = sumRange ria1 ((ind_tbin tEnd dt).getD (i - 1) 0)
            ((ind_tbin tEnd dt).getD i 0)) ∧
    ((sd_rebin ria1 (ind_tbin tEnd dt) n_steps).sum
        = sumRange ria1 0 ((ind_tbin tEnd dt).getD (n_steps - 2) 0)) := by
  refine ⟨?_, ?_, ?_⟩
  · have h := rebinAux_getD ria1 0 (n_steps - 1) (ind_tbin tEnd dt) 0
      (by omega) hlen
    simpa [sd_rebin, List.getD] using h
  · intro i h1 h2
    obtain ⟨j, rfl⟩ : ∃ j, i = j + 1 := ⟨i - 1, by omega⟩
    have h := rebinAux_getD ria1 (j + 1) (n_steps - 1) (ind_tbin tEnd dt) 0
      (by omega) hlen
    rw [List.getD_cons_succ] at h
    simpa [sd_rebin] using h
  · have h := rebinAux_sum ria1 (n_steps - 1) (ind_tbin tEnd dt) 0
      hlen (ind_tbin_chain tEnd dt)
    have he : n_steps - 1 = (n_steps - 2) + 1 := by omega
    have hg : ((0:ℕ) :: ind_tbin tEnd dt).getD (n_steps - 1) 0
        = (ind_tbin tEnd dt).getD (n_steps - 2) 0 := by
      rw [he, List.getD_cons_succ]
    rw [hg] at h
    exact h

/-- Witness for `sd_rebin_partition_spec` in the `dt = 30`,
`t[-1] = 60`, `n_steps = 3` setup. -/
theorem sd_rebin_partition_spec_witness :
    (sd_rebin (List.replicate 32 (2:ℚ)) (ind_tbin 60 30) 3).sum
      = sumRange (List.replicate 32 (2:ℚ)) 0 ((ind_tbin 60 30).getD 1 0) :=
  (sd_rebin_partition_spec (List.replicate 32 (2:ℚ)) 60 30 3
    (by norm_num) (by decide)).2.2

/-- In a strictly sorted list, the elements of `dropLast` are exactly
the members that have a larger member after them. -/
theorem mem_dropLast_sorted : ∀ (l : List ℕ), l.Pairwise (· < ·) →
    ∀ j, (j ∈ l.dropLast ↔ j ∈ l ∧ ∃ k ∈ l, j < k) := by
  intro l
  induction l with
  | nil =>
    intro _ j
    simp
  | cons a t ih =>
    intro hp j
    cases t with
    | nil =>
      constructor
      · intro h
        simp at h
      · rintro ⟨h1, k, hk, hlt⟩
        rw [List.mem_singleton] at h1 hk
        subst h1
        subst hk
        exact absurd hlt (lt_irrefl _)
    | cons b t2 =>
      have hd : (a :: b :: t2).dropLast = a :: (b :: t2).dropLast := rfl
      have halt : ∀ x ∈ b :: t2, a < x := (List.pairwise_cons.mp hp).1
      have hpt : (b :: t2).Pairwise (· < ·) := (List.pairwise_cons.mp hp).2
      rw [hd]
      constructor
      · intro h
        rcases List.mem_cons.mp h with rfl | h2
        · exact ⟨List.mem_cons_self _ _, b,
            List.mem_cons_of_mem _ (List.mem_cons_self _ _),
            halt _ (List.mem_cons_self _ _)⟩
        · obtain ⟨hm, k, hk, hlt⟩ := (ih hpt j).mp h2
          exact ⟨List.mem_cons_of_mem _ hm, k, List.mem_cons_of_mem _ hk, hlt⟩
      · rintro ⟨hm, k, hk, hlt⟩
        rcases List.mem_cons.mp hm with rfl | hm2
        · exact List.mem_cons_self _ _
        · apply List.mem_cons_of_mem
          apply (ih hpt j).mpr
          refine ⟨hm2, ?_⟩
          rcases List.mem_cons.mp hk with rfl | hk2
          · exact absurd (lt_trans hlt (halt _ hm2)) (lt_irrefl _)
          · exact ⟨k, hk2, hlt⟩

/-- C9 (amended): which fine-grid indices receive segment `i`'s `nm2`
assignment.  Membership uses the rounded `m1low` only in the first
segment (`i = 0`); middle and last segments compare the raw `m1low`
against the breaks.  An index of the segment is written unless it is the
largest index of the segment, which is skipped except when the segment
is the last one of several (`i != 0` and `i = len(alpha) - 1`); in
particular a single-segment IMF (`i = 0 = len(alpha) - 1`) also skips
its largest index. -/
theorem segIndInt_membership_spec (m1low mass_breaks : List ℚ)
    (nAlpha i j : ℕ) :
    j ∈ segIndInt m1low mass_breaks nAlpha i
      ↔ j < m1low.length ∧ segMemb m1low mass_breaks nAlpha i j = true
          ∧ ((i ≠ 0 ∧ i = nAlpha - 1)
             ∨ ∃ k, j < k ∧ k < m1low.length
                 ∧ segMemb m1low mass_breaks nAlpha i k = true) := by
  have hpair : (segInd m1low mass_breaks nAlpha i).Pairwise (· < ·) :=
    List.Pairwise.filter _ (List.pairwise_lt_range _)
  have hmem : ∀ x, x ∈ segInd m1low mass_breaks nAlpha i
      ↔ x < m1low.length ∧ segMemb m1low mass_breaks nAlpha i x = true := by
    intro x
    simp [segInd, List.mem_filter, List.mem_range]
  by_cases hkeep : i ≠ 0 ∧ i = nAlpha - 1
  · have hdef : segIndInt m1low mass_breaks nAlpha i
        = segInd m1low mass_breaks nAlpha i := by
      unfold segIndInt
      rw [if_neg hkeep.1, if_neg (not_not_intro hkeep.2)]
    rw [hdef]
    constructor
    · intro h
      obtain ⟨h1, h2⟩ := (hmem j).mp h
      exact ⟨h1, h2, Or.inl hkeep⟩
    · rintro ⟨h1, h2, _⟩
      exact (hmem j).mpr ⟨h1, h2⟩
  · have hdef : segIndInt m1low mass_breaks nAlpha i
        = (segInd m1low mass_breaks nAlpha i).dropLast := by
      unfold segIndInt
      by_cases h0 : i = 0
      · rw [if_pos h0]
      · have hne : i ≠ nAlpha - 1 := fun he => hkeep ⟨h0, he⟩
        rw [if_neg h0, if_pos hne]
    rw [hdef, mem_dropLast_sorted _ hpair j]
    constructor
    · rintro ⟨hj, k, hk, hlt⟩
      obtain ⟨h1, h2⟩ := (hmem j).mp hj
      obtain ⟨h3, h4⟩ := (hmem k).mp hk
      exact ⟨h1, h2, Or.inr ⟨k, hlt, h3, h4⟩⟩
    · rintro ⟨h1, h2, hor⟩
      rcases hor with hk | ⟨k, hlt, h3, h4⟩
      · exact absurd hk hkeep
      · exact ⟨(hmem j).mpr ⟨h1, h2⟩, k, (hmem k).mpr ⟨h3, h4⟩, hlt⟩

/-- C9 counterexample.  (1) With a single IMF segment
(`len(alpha) = 1`, no mass breaks) the one — final, unbounded — segment
still drops its largest index (the `i == 0` branch wins), against the
claimed "final segment keeps all indices".  (2) With breaks `[1/2]` and
`m1low = [0.4, 0.4999999]`, the code's last segment compares the *raw*
`m1low` (`0.4999999 >= 0.5` fails: no member), while the claimed
rounded comparison (`round5(0.4999999) = 0.5 >= 0.5`) admits index 1. -/
theorem segIndInt_counterexample :
    (segIndInt [3] [] 1 0 = [] ∧ segIndIntClaimed [3] [] 1 0 = [0]) ∧
    (segIndInt [2/5, 4999999/10000000] [1/2] 2 1 = []
      ∧ segIndIntClaimed [2/5, 4999999/10000000] [1/2] 2 1 = [1]) := by
  have hround0 : round5 (2/5 : ℚ) = 2/5 := by
    rw [round5, show (2/5 : ℚ) * 100000 = 40000 by norm_num, round_eq]
    norm_num
  have hround1 : round5 (4999999/10000000 : ℚ) = 1/2 := by
    rw [round5, show (4999999/10000000 : ℚ) * 100000 = 4999999/100 by norm_num,
      round_eq]
    norm_num
  refine ⟨⟨rfl, rfl⟩, ?_, ?_⟩
  · have h0 : segMemb [2/5, 4999999/10000000] [1/2] 2 1 0 = false := by
      simp only [segMemb]
      rw [if_neg (by norm_num), if_neg (by norm_num)]
      apply decide_eq_false
      norm_num [List.getD, List.getLast?]
    have h1 : segMemb [2/5, 4999999/10000000] [1/2] 2 1 1 = false := by
      simp only [segMemb]
      rw [if_neg (by norm_num), if_neg (by norm_num)]
      apply decide_eq_false
      norm_num [List.getD, List.getLast?]
    have hseg : segInd [2/5, 4999999/10000000] [1/2] 2 1 = [] := by
      show (List.range 2).filter _ = []
      rw [show List.range 2 = [0, 1] from by decide, List.filter_cons,
        List.filter_cons, List.filter_nil, h0, h1]
      simp
    unfold segIndInt
    rw [if_neg (by decide), if_neg (not_not_intro rfl)]
    exact hseg
  · have hc0 : segMembClaimed [2/5, 4999999/10000000] [1/2] 2 1 0 = false := by
      simp only [segMembClaimed]
      rw [if_neg (by norm_num), if_neg (by norm_num)]
      apply decide_eq_false
      norm_num [List.getD, List.getLast?, hround0]
    have hc1 : segMembClaimed [2/5, 4999999/10000000] [1/2] 2 1 1 = true := by
      simp only [segMembClaimed]
      rw [if_neg (by norm_num), if_neg (by norm_num)]
      apply decide_eq_true
      norm_num [List.getD, List.getLast?, hround1]
    unfold segIndIntClaimed
    rw [if_pos rfl]
    show (List.range 2).filter _ = [1]
    rw [show List.range 2 = [0, 1] from by decide, List.filter_cons,
      List.filter_cons, List.filter_nil, hc0, hc1]
    simp

/-- Multiplying any float value by `inf` is never finite: zero gives
`nan`, nonzero finite values give signed infinities. -/
theorem fval_mul_inf_not_finite (x : FVal) :
    (FVal.mul x FVal.inf).isFinite = false := by
  cases x with
  | fin q =>
    by_cases h0 : q = 0
    · simp [FVal.mul, h0, FVal.isFinite]
    · rcases lt_or_gt_of_ne h0 with h | h
      · simp [FVal.mul, h0, not_lt.mpr (le_of_lt h), FVal.isFinite]
      · simp [FVal.mul, h0, h, FVal.isFinite]
  | inf => simp [FVal.mul, FVal.isFinite]
  | neginf => simp [FVal.mul, FVal.isFinite]
  | nan => simp [FVal.mul, FVal.isFinite]

/-- C10 counterexample: with `min_snia_time = 100` and the grid
`t = [0, 30, 60]`, no entry passes the mask, the window sum is exactly
0, and the build completes — no error of any kind is raised (the
function is total) — returning `ria = [nan, nan, nan]`
(`norm = nia/0 = inf`, then `0 * inf = nan` entrywise). -/
theorem dtd_powerlawF_counterexample :
    dtd_powerlawF [0, 30, 60] 100 (22/10000) (fun ti => FVal.fin ti)
      = [FVal.nan, FVal.nan, FVal.nan] := by
  have hmask : ([0, 30, 60] : List ℚ).map
      (fun ti => if (100:ℚ) ≤ ti then FVal.fin ti else FVal.fin 0)
      = [FVal.fin 0, FVal.fin 0, FVal.fin 0] := by
    rw [List.map_cons, List.map_cons, List.map_cons, List.map_nil]
    norm_num
  simp only [dtd_powerlawF]
  rw [hmask]
  have hsum : sumWindowF [0, 30, 60] [FVal.fin 0, FVal.fin 0, FVal.fin 0]
      = FVal.fin 0 := by
    norm_num [sumWindowF, FVal.listSum, FVal.add, List.zipWith]
  rw [hsum]
  have hdiv : FVal.div (FVal.fin (22/10000)) (FVal.fin 0) = FVal.inf := by
    norm_num [FVal.div]
  rw [hdiv]
  simp [FVal.mul]

/-- C10 (amended): when the normalization denominator
`ria[ind10000].sum()` is exactly zero and `nia_per_mstar > 0`, the
power-law build does not fail fast: it completes, and every entry of the
resulting `ria` is non-finite (`nan` where the pre-normalization entry
was zero, signed infinities elsewhere).  No `NormalizationError` exists
anywhere in the code. -/
theorem dtd_powerlawF_nonfinite (t : List ℚ) (minT nia : ℚ) (pwF : ℚ → FVal)
    (hS : sumWindowF t (t.map (fun ti => if minT ≤ ti then pwF ti else FVal.fin 0))
        = FVal.fin 0)
    (hnia : 0 < nia) :
    ∀ v ∈ dtd_powerlawF t minT nia pwF, v.isFinite = false := by
  intro v hv
  have hnorm : FVal.div (.fin nia)
      (sumWindowF t (t.map (fun ti => if minT ≤ ti then pwF ti else FVal.fin 0)))
      = FVal.inf := by
    rw [hS]
    simp [FVal.div, ne_of_gt hnia, hnia]
  have hv2 : v ∈ (t.map (fun ti => if minT ≤ ti then pwF ti else FVal.fin 0)).map
      (fun r => FVal.mul r FVal.inf) := by
    simpa only [dtd_powerlawF, hnorm] using hv
  obtain ⟨r, _, rfl⟩ := List.mem_map.mp hv2
  exact fval_mul_inf_not_finite r

/-- Witness for `dtd_powerlawF_nonfinite` at the concrete degenerate
configuration. -/
theorem dtd_powerlawF_nonfinite_witness :
    FVal.isFinite ((dtd_powerlawF [0, 30, 60] 100 (22/10000)
      (fun ti => FVal.fin ti)).getD 0 FVal.nan) = false := by
  have hlen : 0 < (dtd_powerlawF [0, 30, 60] 100 (22/10000)
      (fun ti => FVal.fin ti)).length := by
    simp [dtd_powerlawF]
  have hmem : (dtd_powerlawF [0, 30, 60] 100 (22/10000)
      (fun ti => FVal.fin ti)).getD 0 FVal.nan
      ∈ dtd_powerlawF [0, 30, 60] 100 (22/10000) (fun ti => FVal.fin ti) := by
    rw [List.getD_eq_getElem?_getD, List.getElem?_eq_getElem hlen]
    exact List.getElem_mem _
  apply dtd_powerlawF_nonfinite [0, 30, 60] 100 (22/10000)
    (fun ti => FVal.fin ti) ?_ (by norm_num) _ hmem
  have hmask : ([0, 30, 60] : List ℚ).map
      (fun ti => if (100:ℚ) ≤ ti then FVal.fin ti else FVal.fin 0)
      = [FVal.fin 0, FVal.fin 0, FVal.fin 0] := by
    rw [List.map_cons, List.map_cons, List.map_cons, List.map_nil]
    norm_num
  rw [hmask]
  norm_num [sumWindowF, FVal.listSum, FVal.add, List.zipWith]
